import Mathlib

/-!
Shallow embedding of the crew-assignment CP model of `asp-sorting-hat`
(`src/linear_program/lp_model.py`, `src/linear_program/constraints.py`,
`src/models.py`, `src/config.py`).

The CP-SAT decision variables `person_center[p, c]` and
`person_crew[p, c, k]` are booleans; a candidate solution is embedded as a
pair of functions from the (string) keys to `Bool`.  Each Python constraint
builder `model.Add(...)`-s a family of linear (in)equalities; here each
builder becomes a decidable satisfaction predicate that holds of a solution
exactly when every constraint the builder adds is satisfied.  The objective
builders (`objectives.py`) only introduce fresh auxiliary variables and
constraints on those, so they do not further restrict the assignment
variables; they are outside the scope of the properties below.
-/

namespace ASP

/-- `Crew` record (`models.py`): name and the immutable pre-existing adult
roster (`adults`). The derived `members`/`size` fields are not read by the
model builder and are omitted. -/
structure Crew where
  name : String
  adults : List String
  deriving DecidableEq

/-- `Center` record (`models.py`): name and its crews. -/
structure Center where
  name : String
  crews : List Crew
  deriving DecidableEq

/-- `Youth` record (`models.py`), with the fields the model builder reads.
The constraint code accesses the parent names as `parent_names_list`
(the pipe-separated `parent_name` column split into a list) and the
siblings as `siblings_list` (the pipe-separated `siblings` column split
into a list); those are the field names used here. -/
structure Youth where
  name : String
  year : String
  gender : String
  history : String
  role : String
  parent_names_list : List String
  siblings_list : List String
  first_choice : Option String
  second_choice : Option String
  third_choice : Option String
  past_leaders : List String
  deriving DecidableEq

/-- `Config` dataclass (`config.py`): crew size bounds and objective
weights (spec section 6: non-negative integers). -/
structure Config where
  min_crew_size : Nat
  max_crew_size : Nat
  friend_weight : Nat
  gender_weight : Nat
  year_weight : Nat
  history_weight : Nat
  deriving DecidableEq

/-- Value of the `person_center[person, center]` boolean variables. -/
abbrev CenterAssign := String → String → Bool

/-- Value of the `person_crew[person, center, crew]` boolean variables. -/
abbrev CrewAssign := String → String → String → Bool

/-- `add_one_crew_per_youth` (`constraints.py`): each role-`Youth` person's
crew variables sum to 1 over all centers and crews; every other person
(Young Adult) has each crew variable forced to 1 if their name is on that
crew's adult roster and to 0 otherwise. -/
def add_one_crew_per_youth (person_crew : CrewAssign)
    (youth_list : List Youth) (centers : List Center) : Bool :=
  youth_list.all fun youth =>
    if youth.role == "Youth" then
      decide ((centers.flatMap fun center => center.crews.map fun crew =>
        (person_crew youth.name center.name crew.name).toNat).sum = 1)
    else
      centers.all fun center => center.crews.all fun crew =>
        if crew.adults.contains youth.name then
          person_crew youth.name center.name crew.name == true
        else
          person_crew youth.name center.name crew.name == false

/-- `link_crew_and_center_vars` (`constraints.py`): for every person and
center, `person_center[p, c] = Σ_k person_crew[p, c, k]`. -/
def link_crew_and_center_vars (person_crew : CrewAssign)
    (person_center : CenterAssign)
    (youth_list : List Youth) (centers : List Center) : Bool :=
  youth_list.all fun youth => centers.all fun center =>
    decide ((person_center youth.name center.name).toNat
      = (center.crews.map fun crew =>
          (person_crew youth.name center.name crew.name).toNat).sum)

/-- The `adult_names` set precomputed by `enforce_parent_center_constraint`:
every name on any crew's adult roster. -/
def adult_names (centers : List Center) : List String :=
  centers.flatMap fun center => center.crews.flatMap fun crew => crew.adults

/-- The `adult_to_center` dict precomputed by
`enforce_parent_center_constraint`: built by iterating centers, crews and
adults in order and writing `adult_to_center[adult] = center`, so a later
occurrence of the same adult name overwrites an earlier one. -/
def adult_to_center (centers : List Center) : String → Option Center :=
  centers.foldl
    (fun m center => center.crews.foldl
      (fun m2 crew => crew.adults.foldl
        (fun m3 adult => fun key => if key == adult then some center else m3 key)
        m2)
      m)
    (fun _ => none)

/-- The raising half of `enforce_parent_center_constraint`
(`constraints.py` lines 72-77): scanning the youth list in order, the first
parent name not found in `adult_names` raises
`ValueError('Parent {p} not found in any center for {y}')`; returns that
`(parent, youth)` pair, or `none` when no parent is missing. -/
def firstMissingParent (adultNames : List String) :
    List Youth → Option (String × String)
  | [] => none
  | youth :: rest =>
    if youth.parent_names_list.isEmpty then firstMissingParent adultNames rest
    else
      match youth.parent_names_list.find? (fun p => !(adultNames.contains p)) with
      | some p => some (p, youth.name)
      | none => firstMissingParent adultNames rest

/-- The constraint half of `enforce_parent_center_constraint`
(`constraints.py` lines 79-90), reached for a youth when all its parents
were found: resolve the first listed parent through `adult_to_center`; the
youth's `person_center` at that center is forced to 1, and for every crew
of that center containing one of the youth's parents, the youth's
`person_crew` there is forced to 0. -/
def enforce_parent_center_constraint (person_crew : CrewAssign)
    (person_center : CenterAssign)
    (youth_list : List Youth) (centers : List Center) : Bool :=
  let a2c := adult_to_center centers
  youth_list.all fun youth =>
    match youth.parent_names_list with
    | [] => true
    | p0 :: _ =>
      match a2c p0 with
      | none => true
      | some parent_center =>
        (person_center youth.name parent_center.name == true) &&
        parent_center.crews.all fun crew =>
          youth.parent_names_list.all fun parent_name =>
            if crew.adults.contains parent_name then
              person_crew youth.name parent_center.name crew.name == false
            else true

/-- `enforce_sibling_center_constraint` (`constraints.py`): for every youth
and every name on its sibling list that is a key of `youth_dict`, the two
`person_center` variables agree at every center. `youth_dict` is keyed by
the names of `youth_list`, so key membership is membership in that name
list. -/
def enforce_sibling_center_constraint (person_center : CenterAssign)
    (youth_list : List Youth) (centers : List Center)
    (youth_dict : List String) : Bool :=
  youth_list.all fun youth =>
    youth.siblings_list.all fun sibling =>
      if youth_dict.contains sibling then
        centers.all fun center =>
          person_center youth.name center.name == person_center sibling center.name
      else true

/-- Lexicographic strict order on character lists, by code point: the
order `sorted` uses on the underlying strings. -/
def charListLt : List Char → List Char → Bool
  | [], [] => false
  | [], _ :: _ => true
  | _ :: _, [] => false
  | a :: as, b :: bs =>
    decide (a.toNat < b.toNat) || (a == b && charListLt as bs)

/-- Lexicographic strict order on strings (kernel-reducible form of
`String` comparison). -/
def stringLt (a b : String) : Bool := charListLt a.data b.data

/-- The canonical unordered pair `tuple(sorted([a, b]))` used by the
deduplicating constraint builders. Only the unordered-pair identity of the
result matters to the builders: equal inputs in either order yield the same
canonical pair. -/
def canonPair (a b : String) : String × String :=
  if stringLt a b then (a, b) else (b, a)

/-- The per-pair block of constraints shared by
`enforce_sibling_crew_separation_constraint` and
`enforce_friend_separation_constraint`: for every center and crew, the two
persons' `person_crew` variables sum to at most 1. -/
def pairCrewSeparation (person_crew : CrewAssign) (centers : List Center)
    (a b : String) : Bool :=
  centers.all fun center => center.crews.all fun crew =>
    decide ((person_crew a center.name crew.name).toNat
      + (person_crew b center.name crew.name).toNat ≤ 1)

/-- The deduplicating loop shared by
`enforce_sibling_crew_separation_constraint` and
`enforce_friend_separation_constraint`: walk the (person, other) name
occurrences in source order; when the other name is a `youth_dict` key and
the canonical pair was not processed yet, record it and add the pair's
crew-separation block. -/
def crewSeparationLoop (person_crew : CrewAssign) (centers : List Center)
    (youth_dict : List String) :
    List (String × String) → List (String × String) → Bool
  | [], _ => true
  | (yname, other) :: rest, processed =>
    if youth_dict.contains other then
      let pair := canonPair yname other
      if processed.contains pair then
        crewSeparationLoop person_crew centers youth_dict rest processed
      else
        pairCrewSeparation person_crew centers yname other &&
        crewSeparationLoop person_crew centers youth_dict rest (pair :: processed)
    else crewSeparationLoop person_crew centers youth_dict rest processed

/-- The (youth name, sibling name) occurrences enumerated by the nested
loops of `enforce_sibling_crew_separation_constraint`. -/
def siblingOccurrences (youth_list : List Youth) : List (String × String) :=
  youth_list.flatMap fun youth =>
    youth.siblings_list.map fun sibling => (youth.name, sibling)

/-- `enforce_sibling_crew_separation_constraint` (`constraints.py`):
process each sibling pair once (via `processed_pairs`) and add
`person_crew[a,c,k] + person_crew[b,c,k] <= 1` for every center and crew. -/
def enforce_sibling_crew_separation_constraint (person_crew : CrewAssign)
    (youth_list : List Youth) (centers : List Center)
    (youth_dict : List String) : Bool :=
  crewSeparationLoop person_crew centers youth_dict
    (siblingOccurrences youth_list) []

/-- The non-`None` friend choices of a youth, in rank order, as enumerated
by `enforce_friend_separation_constraint`. -/
def friendChoices (youth : Youth) : List String :=
  [youth.first_choice, youth.second_choice, youth.third_choice].filterMap id

/-- The (youth name, friend name) occurrences enumerated by the nested
loops of `enforce_friend_separation_constraint`. -/
def friendOccurrences (youth_list : List Youth) : List (String × String) :=
  youth_list.flatMap fun youth =>
    (friendChoices youth).map fun friend => (youth.name, friend)

/-- `enforce_friend_separation_constraint` (`constraints.py`): for every
person and each non-`None` friend choice that is a `youth_dict` key,
process the pair once and add
`person_crew[y,c,k] + person_crew[f,c,k] <= 1` for every center and crew. -/
def enforce_friend_separation_constraint (person_crew : CrewAssign)
    (youth_list : List Youth) (centers : List Center)
    (youth_dict : List String) : Bool :=
  crewSeparationLoop person_crew centers youth_dict
    (friendOccurrences youth_list) []

/-- The `valid_choices` list of `enforce_friend_center_constraint`: the
non-`None` friend choices that are `youth_dict` keys. -/
def validChoices (youth : Youth) (youth_dict : List String) : List String :=
  (friendChoices youth).filter fun c => youth_dict.contains c

/-- `enforce_friend_center_constraint` (`constraints.py`): for every person
with a nonempty `valid_choices` list and every center,
`person_center[y, c] <= Σ_f person_center[f, c]` over the valid choices. -/
def enforce_friend_center_constraint (person_center : CenterAssign)
    (youth_list : List Youth) (centers : List Center)
    (youth_dict : List String) : Bool :=
  youth_list.all fun youth =>
    let valid_choices := validChoices youth youth_dict
    if valid_choices.isEmpty then true
    else
      centers.all fun center =>
        decide ((person_center youth.name center.name).toNat
          ≤ (valid_choices.map fun friend =>
              (person_center friend center.name).toNat).sum)

/-- `enforce_crew_size_constraints` (`constraints.py`): for every center
and crew, the number of passed-in youths assigned to the crew plus the
crew's pre-existing adult roster size lies in
`[min_crew_size, max_crew_size]`. (`lp_model.py` passes the role-`Youth`
persons only.) -/
def enforce_crew_size_constraints (person_crew : CrewAssign)
    (youth_list : List Youth) (centers : List Center) (cfg : Config) : Bool :=
  centers.all fun center => center.crews.all fun crew =>
    let youth_in_crew := (youth_list.map fun youth =>
      (person_crew youth.name center.name crew.name).toNat).sum
    let current_adult_count := crew.adults.length
    decide (cfg.min_crew_size ≤ youth_in_crew + current_adult_count) &&
    decide (youth_in_crew + current_adult_count ≤ cfg.max_crew_size)

/-- `enforce_past_leader_constraint` (`constraints.py`): for every person
with a nonempty past-leader list and every crew whose roster contains one
of those leaders, the person's `person_crew` there is forced to 0. -/
def enforce_past_leader_constraint (person_crew : CrewAssign)
    (youth_list : List Youth) (centers : List Center) : Bool :=
  youth_list.all fun youth =>
    if youth.past_leaders.isEmpty then true
    else
      centers.all fun center => center.crews.all fun crew =>
        if youth.past_leaders.any fun leader => crew.adults.contains leader then
          person_crew youth.name center.name crew.name == false
        else true

/-- The keys of `youth_dict` built by `create_crew_assignment_model`: the
names of `youth_list`. -/
def youthDictKeys (youth_list : List Youth) : List String :=
  youth_list.map fun youth => youth.name

/-- The `regular_youth` filter of `create_crew_assignment_model`. -/
def regularYouth (youth_list : List Youth) : List Youth :=
  youth_list.filter fun youth => youth.role == "Youth"

/-- A solution satisfies every hard constraint added to the model by
`create_crew_assignment_model` (`lp_model.py` lines 55-63). -/
def feasible (cfg : Config) (youth_list : List Youth) (centers : List Center)
    (person_center : CenterAssign) (person_crew : CrewAssign) : Bool :=
  let youth_dict := youthDictKeys youth_list
  add_one_crew_per_youth person_crew youth_list centers &&
  link_crew_and_center_vars person_crew person_center youth_list centers &&
  enforce_parent_center_constraint person_crew person_center youth_list centers &&
  enforce_sibling_center_constraint person_center youth_list centers youth_dict &&
  enforce_sibling_crew_separation_constraint person_crew youth_list centers youth_dict &&
  enforce_friend_separation_constraint person_crew youth_list centers youth_dict &&
  enforce_friend_center_constraint person_center youth_list centers youth_dict &&
  enforce_crew_size_constraints person_crew (regularYouth youth_list) centers cfg &&
  enforce_past_leader_constraint person_crew youth_list centers

/-- `create_crew_assignment_model` (`lp_model.py`): builds the two variable
key maps; `enforce_parent_center_constraint` raises a `ValueError` when a
listed parent is not on any crew roster, in which case the exception
propagates and no model or variable maps are returned. The successful
result carries the `person_center` and `person_crew` key sets, in creation
order. -/
def create_crew_assignment_model (cfg : Config) (youth_list : List Youth)
    (centers : List Center) :
    Except String (List (String × String) × List (String × String × String)) :=
  let person_center_keys := youth_list.flatMap fun youth =>
    centers.map fun center => (youth.name, center.name)
  let person_crew_keys := centers.flatMap fun center =>
    center.crews.flatMap fun crew =>
      youth_list.map fun youth => (youth.name, center.name, crew.name)
  match firstMissingParent (adult_names centers) youth_list with
  | some pe =>
    Except.error ("Parent " ++ pe.1 ++ " not found in any center for " ++ pe.2)
  | none => Except.ok (person_center_keys, person_crew_keys)

/-- Total number of crews across all centers. -/
def num_crews (centers : List Center) : Nat :=
  (centers.map fun center => center.crews.length).sum

/-- Total size of all pre-existing crew adult rosters. -/
def total_roster_adults (centers : List Center) : Nat :=
  (centers.map fun center =>
    (center.crews.map fun crew => crew.adults.length).sum).sum

/-- Number of role-`Youth` persons in the input list. -/
def num_youths (youth_list : List Youth) : Nat :=
  (regularYouth youth_list).length

/-- Some crew of the center has this name on its adult roster. -/
def containsAdult (center : Center) (key : String) : Bool :=
  center.crews.any fun crew => crew.adults.contains key

/-- The last center in the list containing the name on some crew's roster:
the value stored for the name by the `adult_to_center` dict build, since a
later write overwrites an earlier one. -/
def lastCenterContaining : List Center → String → Option Center
  | [], _ => none
  | center :: rest, key =>
    match lastCenterContaining rest key with
    | some c2 => some c2
    | none => if containsAdult center key then some center else none

/-! ### Concrete example instance

One center `A` with crews `K1` (roster `Pa`) and `K2` (roster `Ya`); two
regular youths `Alice` (child of `Pa`, sibling and friend of `Bob`) and
`Bob`, a rostered Young Adult `Ya` whose friend choice is `Bob`, and an
unrostered Young Adult `Zed`. -/

def crewK1 : Crew := { name := "K1", adults := ["Pa"] }

def crewK2 : Crew := { name := "K2", adults := ["Ya"] }

def centerA : Center := { name := "A", crews := [crewK1, crewK2] }

def csEx : List Center := [centerA]

def yAlice : Youth :=
  { name := "Alice", year := "Fr", gender := "F", history := "N",
    role := "Youth", parent_names_list := ["Pa"], siblings_list := ["Bob"],
    first_choice := some "Bob", second_choice := none, third_choice := none,
    past_leaders := [] }

def yBob : Youth :=
  { name := "Bob", year := "So", gender := "M", history := "V",
    role := "Youth", parent_names_list := [], siblings_list := ["Alice"],
    first_choice := some "Alice", second_choice := none, third_choice := none,
    past_leaders := [] }

def yYa : Youth :=
  { name := "Ya", year := "Sr", gender := "M", history := "V",
    role := "Young Adult", parent_names_list := [], siblings_list := [],
    first_choice := some "Bob", second_choice := none, third_choice := none,
    past_leaders := [] }

def yZed : Youth :=
  { name := "Zed", year := "Jr", gender := "F", history := "N",
    role := "Young Adult", parent_names_list := [], siblings_list := [],
    first_choice := none, second_choice := none, third_choice := none,
    past_leaders := [] }

def ylEx : List Youth := [yAlice, yBob, yYa, yZed]

def cfgEx : Config :=
  { min_crew_size := 1, max_crew_size := 3, friend_weight := 2,
    gender_weight := 1, year_weight := 1, history_weight := 1 }

/-- A satisfying assignment for the example: `Alice → (A, K2)`,
`Bob → (A, K1)`, `Ya` pinned at `(A, K2)`, `Zed` unassigned. -/
def pcEx : CenterAssign := fun p c =>
  (p == "Alice" || p == "Bob" || p == "Ya") && c == "A"

def pkEx : CrewAssign := fun p c k =>
  c == "A" &&
    ((p == "Alice" && k == "K2") || (p == "Bob" && k == "K1") ||
      (p == "Ya" && k == "K2"))

/-! ### Instance with a Young Adult rostered on two crews (for C4) -/

def crewD1 : Crew := { name := "K1", adults := ["Ya"] }

def crewD2 : Crew := { name := "K2", adults := ["Ya"] }

def centerDA : Center := { name := "A", crews := [crewD1] }

def centerDB : Center := { name := "B", crews := [crewD2] }

def csC4 : List Center := [centerDA, centerDB]

def yaC4 : Youth :=
  { name := "Ya", year := "Sr", gender := "M", history := "V",
    role := "Young Adult", parent_names_list := [], siblings_list := [],
    first_choice := none, second_choice := none, third_choice := none,
    past_leaders := [] }

def ylC4 : List Youth := [yaC4]

def cfgC4 : Config :=
  { min_crew_size := 0, max_crew_size := 5, friend_weight := 2,
    gender_weight := 1, year_weight := 1, history_weight := 1 }

def pcC4 : CenterAssign := fun p c => p == "Ya" && (c == "A" || c == "B")

def pkC4 : CrewAssign := fun p c k =>
  p == "Ya" && ((c == "A" && k == "K1") || (c == "B" && k == "K2"))

/-! ### Overfull minimum instance (for C7) -/

def csC7 : List Center := [{ name := "A", crews := [{ name := "K1", adults := [] }] }]

def ylC7 : List Youth :=
  [{ name := "Solo", year := "Fr", gender := "F", history := "N",
     role := "Youth", parent_names_list := [], siblings_list := [],
     first_choice := none, second_choice := none, third_choice := none,
     past_leaders := [] }]

def cfgC7 : Config :=
  { min_crew_size := 5, max_crew_size := 7, friend_weight := 2,
    gender_weight := 1, year_weight := 1, history_weight := 1 }

/-! ### Instance with an unresolvable parent (for C8) -/

def yKid : Youth :=
  { name := "Kid", year := "Fr", gender := "F", history := "N",
    role := "Youth", parent_names_list := ["Ghost"], siblings_list := [],
    first_choice := none, second_choice := none, third_choice := none,
    past_leaders := [] }

def ylC8 : List Youth := [yKid]

/-- The all-false assignment of the `person_center` variables. -/
def pcZero : CenterAssign := fun _ _ => false

/-- The all-false assignment of the `person_crew` variables. -/
def pkZero : CrewAssign := fun _ _ _ => false

end ASP

namespace ASP

/-! ## Helper lemmas -/

theorem contains_iff_mem {l : List String} {a : String} :
    l.contains a = true ↔ a ∈ l := by
  simp [List.contains, List.elem_iff]

theorem feasible_parts {cfg : Config} {youth_list : List Youth}
    {centers : List Center} {person_center : CenterAssign}
    {person_crew : CrewAssign}
    (h : feasible cfg youth_list centers person_center person_crew = true) :
    add_one_crew_per_youth person_crew youth_list centers = true ∧
    link_crew_and_center_vars person_crew person_center youth_list centers = true ∧
    enforce_parent_center_constraint person_crew person_center youth_list centers = true ∧
    enforce_sibling_center_constraint person_center youth_list centers (youthDictKeys youth_list) = true ∧
    enforce_sibling_crew_separation_constraint person_crew youth_list centers (youthDictKeys youth_list) = true ∧
    enforce_friend_separation_constraint person_crew youth_list centers (youthDictKeys youth_list) = true ∧
    enforce_friend_center_constraint person_center youth_list centers (youthDictKeys youth_list) = true ∧
    enforce_crew_size_constraints person_crew (regularYouth youth_list) centers cfg = true ∧
    enforce_past_leader_constraint person_crew youth_list centers = true := by
  simpa [feasible, Bool.and_eq_true, and_assoc] using h

theorem le_sum_of_mem {l : List Nat} {a : Nat} (h : a ∈ l) : a ≤ l.sum := by
  induction l with
  | nil => cases h
  | cons b t ih =>
    rcases List.mem_cons.mp h with rfl | ht
    · simp [List.sum_cons]
    · have := ih ht
      simp only [List.sum_cons]
      omega

theorem sum_map_add {α : Type} (f g : α → Nat) (l : List α) :
    (l.map fun a => f a + g a).sum = (l.map f).sum + (l.map g).sum := by
  induction l with
  | nil => rfl
  | cons a t ih => simp [List.sum_cons, ih]; omega

theorem sum_map_swap {α β : Type} (f : α → β → Nat) (l1 : List α) (l2 : List β) :
    (l1.map fun a => (l2.map fun b => f a b).sum).sum
      = (l2.map fun b => (l1.map fun a => f a b).sum).sum := by
  induction l1 with
  | nil => simp
  | cons a t ih =>
    simp only [List.map_cons, List.sum_cons, ih, sum_map_add]

theorem sum_flatMap_eq {α : Type} (f : α → List Nat) (l : List α) :
    (l.flatMap f).sum = (l.map fun a => (f a).sum).sum := by
  induction l with
  | nil => rfl
  | cons a t ih => simp [List.flatMap_cons, List.sum_append, ih]

theorem exists_pos_of_sum_pos {α : Type} {f : α → Nat} {l : List α}
    (h : 0 < (l.map f).sum) : ∃ a ∈ l, 0 < f a := by
  induction l with
  | nil => simp at h
  | cons a t ih =>
    simp only [List.map_cons, List.sum_cons] at h
    by_cases ha : 0 < f a
    · exact ⟨a, List.mem_cons_self a t, ha⟩
    · have : 0 < (t.map f).sum := by omega
      obtain ⟨b, hb, hfb⟩ := ih this
      exact ⟨b, List.mem_cons_of_mem a hb, hfb⟩

theorem sum_const_le {α : Type} {f : α → Nat} {m : Nat} {l : List α}
    (h : ∀ a ∈ l, m ≤ f a) : m * l.length ≤ (l.map f).sum := by
  induction l with
  | nil => simp
  | cons a t ih =>
    have ha := h a (List.mem_cons_self a t)
    have ht := ih fun b hb => h b (List.mem_cons_of_mem a hb)
    simp only [List.map_cons, List.sum_cons, List.length_cons]
    calc m * (t.length + 1) = m + m * t.length := by ring
    _ ≤ f a + (t.map f).sum := by omega

theorem sum_map_one {α : Type} {f : α → Nat} {l : List α}
    (h : ∀ a ∈ l, f a = 1) : (l.map f).sum = l.length := by
  induction l with
  | nil => rfl
  | cons a t ih =>
    have ha := h a (List.mem_cons_self a t)
    have ht := ih fun b hb => h b (List.mem_cons_of_mem a hb)
    simp [List.sum_cons, ha, ht]
    omega

end ASP

namespace ASP

theorem pairCrewSeparation_comm {person_crew : CrewAssign}
    {centers : List Center} {a b : String}
    (h : pairCrewSeparation person_crew centers a b = true) :
    pairCrewSeparation person_crew centers b a = true := by
  simp only [pairCrewSeparation, List.all_eq_true, decide_eq_true_eq] at h ⊢
  intro c hc k hk
  have := h c hc k hk
  omega

theorem canonPair_cases (a b : String) :
    canonPair a b = (a, b) ∨ canonPair a b = (b, a) := by
  unfold canonPair
  by_cases h : stringLt a b = true
  · exact Or.inl (if_pos h)
  · exact Or.inr (if_neg h)

/-- If the deduplicating loop accepts the remaining occurrences and every
already-processed pair satisfies its separation block, then every
dict-resolvable occurrence in the remaining list satisfies its block. -/
theorem crewSeparationLoop_sound {person_crew : CrewAssign}
    {centers : List Center} {youth_dict : List String} :
    ∀ (occs processed : List (String × String)),
      crewSeparationLoop person_crew centers youth_dict occs processed = true →
      (∀ p ∈ processed, pairCrewSeparation person_crew centers p.1 p.2 = true) →
      ∀ a b : String, (a, b) ∈ occs → youth_dict.contains b = true →
        pairCrewSeparation person_crew centers a b = true := by
  intro occs
  induction occs with
  | nil => intro processed _ _ a b hmem _; cases hmem
  | cons hd tl ih =>
    intro processed hloop hproc a b hmem hdict
    obtain ⟨y0, o0⟩ := hd
    rw [crewSeparationLoop] at hloop
    by_cases hd0 : youth_dict.contains o0 = true
    · rw [if_pos hd0] at hloop
      by_cases hp : processed.contains (canonPair y0 o0) = true
      · rw [if_pos hp] at hloop
        rcases List.mem_cons.mp hmem with heq | htl
        · obtain ⟨rfl, rfl⟩ := Prod.mk.injEq .. ▸ And.intro (congrArg Prod.fst heq) (congrArg Prod.snd heq)
          have hmemp : canonPair a b ∈ processed := by
            have : processed.elem (canonPair a b) = true := hp
            exact List.elem_iff.mp this
          have hgood := hproc _ hmemp
          rcases canonPair_cases a b with hcp | hcp
          · rw [hcp] at hgood; exact hgood
          · rw [hcp] at hgood; exact pairCrewSeparation_comm hgood
        · exact ih processed hloop hproc a b htl hdict
      · rw [if_neg hp, Bool.and_eq_true] at hloop
        obtain ⟨hpair, hrest⟩ := hloop
        rcases List.mem_cons.mp hmem with heq | htl
        · obtain ⟨rfl, rfl⟩ := Prod.mk.injEq .. ▸ And.intro (congrArg Prod.fst heq) (congrArg Prod.snd heq)
          exact hpair
        · apply ih _ hrest _ a b htl hdict
          intro p hpmem
          rcases List.mem_cons.mp hpmem with rfl | hpold
          · rcases canonPair_cases y0 o0 with hcp | hcp
            · rw [hcp]; exact hpair
            · rw [hcp]; exact pairCrewSeparation_comm hpair
          · exact hproc p hpold
    · rw [if_neg hd0] at hloop
      rcases List.mem_cons.mp hmem with heq | htl
      · have hb : b = o0 := congrArg Prod.snd heq
        rw [hb] at hdict
        exact absurd hdict hd0
      · exact ih processed hloop hproc a b htl hdict

/-- A sibling listing resolves to the pairwise crew-separation block. -/
theorem sibling_crew_separation {person_crew : CrewAssign}
    {youth_list : List Youth} {centers : List Center} {youth_dict : List String}
    (hsat : enforce_sibling_crew_separation_constraint person_crew youth_list
      centers youth_dict = true)
    {a : Youth} (ha : a ∈ youth_list) {b : String}
    (hb : b ∈ a.siblings_list) (hd : youth_dict.contains b = true) :
    pairCrewSeparation person_crew centers a.name b = true := by
  apply crewSeparationLoop_sound _ _ hsat (by intro p hp; cases hp) a.name b _ hd
  unfold siblingOccurrences
  rw [List.mem_flatMap]
  exact ⟨a, ha, List.mem_map.mpr ⟨b, hb, rfl⟩⟩

/-- A friend-choice listing resolves to the pairwise crew-separation block. -/
theorem friend_crew_separation {person_crew : CrewAssign}
    {youth_list : List Youth} {centers : List Center} {youth_dict : List String}
    (hsat : enforce_friend_separation_constraint person_crew youth_list
      centers youth_dict = true)
    {a : Youth} (ha : a ∈ youth_list) {b : String}
    (hb : b ∈ friendChoices a) (hd : youth_dict.contains b = true) :
    pairCrewSeparation person_crew centers a.name b = true := by
  apply crewSeparationLoop_sound _ _ hsat (by intro p hp; cases hp) a.name b _ hd
  unfold friendOccurrences
  rw [List.mem_flatMap]
  exact ⟨a, ha, List.mem_map.mpr ⟨b, hb, rfl⟩⟩

theorem mem_youthDictKeys {youth_list : List Youth} {b : Youth}
    (hb : b ∈ youth_list) :
    (youthDictKeys youth_list).contains b.name = true := by
  rw [contains_iff_mem]
  exact List.mem_map.mpr ⟨b, hb, rfl⟩

end ASP

namespace ASP

theorem adults_foldl_eq (adults : List String) (center : Center)
    (m : String → Option Center) (key : String) :
    (adults.foldl
      (fun m3 adult => fun k => if k == adult then some center else m3 k) m) key
      = if adults.contains key then some center else m key := by
  induction adults generalizing m with
  | nil => simp [List.foldl]
  | cons a t ih =>
    rw [List.foldl_cons, ih, List.contains_cons]
    by_cases hk : (key == a) = true
    · cases hmem : t.contains key <;> simp [hk, hmem]
    · have hk2 : (key == a) = false := by
        cases h : key == a
        · rfl
        · exact absurd h hk
      cases hmem : t.contains key <;> simp [hk2, hmem]

theorem crews_foldl_eq (crews : List Crew) (center : Center)
    (m : String → Option Center) (key : String) :
    (crews.foldl
      (fun m2 crew => crew.adults.foldl
        (fun m3 adult => fun k => if k == adult then some center else m3 k) m2) m) key
      = if crews.any (fun crew => crew.adults.contains key) then some center
        else m key := by
  induction crews generalizing m with
  | nil => simp [List.foldl]
  | cons c t ih =>
    rw [List.foldl_cons, ih, adults_foldl_eq, List.any_cons]
    cases hc : c.adults.contains key <;>
      cases ht : t.any (fun crew => crew.adults.contains key) <;>
        simp [hc, ht]

theorem adult_to_center_eq (centers : List Center) (key : String) :
    adult_to_center centers key = lastCenterContaining centers key := by
  unfold adult_to_center
  suffices h : ∀ (m : String → Option Center),
      (centers.foldl
        (fun m center => center.crews.foldl
          (fun m2 crew => crew.adults.foldl
            (fun m3 adult => fun k => if k == adult then some center else m3 k) m2) m)
        m) key
      = match lastCenterContaining centers key with
        | some c => some c
        | none => m key by
    rw [h fun _ => none]
    cases lastCenterContaining centers key <;> rfl
  induction centers with
  | nil => intro m; rfl
  | cons c t ih =>
    intro m
    rw [List.foldl_cons, ih, lastCenterContaining]
    cases lastCenterContaining t key with
    | some c2 => rfl
    | none =>
      rw [crews_foldl_eq]
      unfold containsAdult
      cases hc : c.crews.any (fun crew => crew.adults.contains key) <;> simp [hc]

theorem lastCenterContaining_spec {centers : List Center} {key : String}
    {C : Center} (h : lastCenterContaining centers key = some C) :
    C ∈ centers ∧ containsAdult C key = true := by
  induction centers with
  | nil => cases h
  | cons c t ih =>
    rw [lastCenterContaining] at h
    cases htail : lastCenterContaining t key with
    | some c2 =>
      rw [htail] at h
      obtain rfl : c2 = C := by injection h
      obtain ⟨hmem, hcontains⟩ := ih htail
      exact ⟨List.mem_cons_of_mem c hmem, hcontains⟩
    | none =>
      rw [htail] at h
      by_cases hc : containsAdult c key = true
      · rw [if_pos hc] at h
        obtain rfl : c = C := by injection h
        exact ⟨List.mem_cons_self c t, hc⟩
      · rw [if_neg hc] at h
        cases h

theorem lastCenterContaining_isSome {centers : List Center} {key : String}
    {C : Center} (hC : C ∈ centers) (hkey : containsAdult C key = true) :
    ∃ D, lastCenterContaining centers key = some D := by
  induction centers with
  | nil => cases hC
  | cons c t ih =>
    rw [lastCenterContaining]
    cases htail : lastCenterContaining t key with
    | some c2 => exact ⟨c2, rfl⟩
    | none =>
      rcases List.mem_cons.mp hC with rfl | hmem
      · rw [if_pos hkey]; exact ⟨C, rfl⟩
      · obtain ⟨D, hD⟩ := ih hmem
        rw [htail] at hD
        cases hD

/-- When exactly one listed center contains the name, the dict resolves the
name to that center. -/
theorem adult_to_center_unique {centers : List Center} {key : String}
    {C : Center} (hC : C ∈ centers) (hkey : containsAdult C key = true)
    (huniq : ∀ c ∈ centers, containsAdult c key = true → c = C) :
    adult_to_center centers key = some C := by
  rw [adult_to_center_eq]
  obtain ⟨D, hD⟩ := lastCenterContaining_isSome hC hkey
  obtain ⟨hmem, hcontains⟩ := lastCenterContaining_spec hD
  rw [hD, huniq D hmem hcontains]

theorem firstMissingParent_isSome {adultNames : List String}
    {youth_list : List Youth} {y : Youth} (hy : y ∈ youth_list) {p : String}
    (hp : p ∈ y.parent_names_list) (hmiss : adultNames.contains p = false) :
    ∃ pe, firstMissingParent adultNames youth_list = some pe := by
  induction youth_list with
  | nil => cases hy
  | cons y0 t ih =>
    rw [firstMissingParent]
    by_cases hempty : y0.parent_names_list.isEmpty = true
    · rw [if_pos hempty]
      rcases List.mem_cons.mp hy with rfl | hmem
      · rw [List.isEmpty_iff] at hempty
        rw [hempty] at hp
        cases hp
      · exact ih hmem
    · rw [if_neg hempty]
      cases hfind : y0.parent_names_list.find? (fun q => !(adultNames.contains q)) with
      | some q => exact ⟨(q, y0.name), rfl⟩
      | none =>
        rcases List.mem_cons.mp hy with rfl | hmem
        · have := List.find?_eq_none.mp hfind p hp
          rw [hmiss] at this
          simp at this
        · exact ih hmem

theorem firstMissingParent_none {adultNames : List String}
    {youth_list : List Youth}
    (h : firstMissingParent adultNames youth_list = none)
    {y : Youth} (hy : y ∈ youth_list) {p : String}
    (hp : p ∈ y.parent_names_list) : adultNames.contains p = true := by
  by_cases hc : adultNames.contains p = true
  · exact hc
  · simp only [Bool.not_eq_true] at hc
    obtain ⟨pe, hpe⟩ := firstMissingParent_isSome hy hp hc
    rw [hpe] at h
    cases h

end ASP

namespace ASP

/-! ## Claim theorems -/

/-- C1: for every model built by `create_crew_assignment_model` and every
feasible solution of it, each person in the input list with role `Youth`
has its `crew_assign` variables summing to exactly 1 across all centers
and crews. -/
theorem claim_C1 (cfg : Config) (youth_list : List Youth)
    (centers : List Center) (person_center : CenterAssign)
    (person_crew : CrewAssign)
    (hfeas : feasible cfg youth_list centers person_center person_crew = true)
    (y : Youth) (hy : y ∈ youth_list) (hrole : y.role = "Youth") :
    (centers.flatMap fun center => center.crews.map fun crew =>
      (person_crew y.name center.name crew.name).toNat).sum = 1 := by
  obtain ⟨h1, -⟩ := feasible_parts hfeas
  rw [add_one_crew_per_youth, List.all_eq_true] at h1
  have h := h1 y hy
  rw [if_pos (beq_iff_eq.mpr hrole)] at h
  exact of_decide_eq_true h

theorem claim_C1_witness :
    (csEx.flatMap fun center => center.crews.map fun crew =>
      (pkEx yAlice.name center.name crew.name).toNat).sum = 1 :=
  claim_C1 cfgEx ylEx csEx pcEx pkEx (by decide) yAlice (by decide) (by decide)

/-- C2: whenever `b` appears on `a`'s sibling list (both on the roster),
every feasible solution assigns `a` and `b` the same `center_assign` value
at every center, and never both to the same crew. -/
theorem claim_C2 (cfg : Config) (youth_list : List Youth)
    (centers : List Center) (person_center : CenterAssign)
    (person_crew : CrewAssign)
    (hfeas : feasible cfg youth_list centers person_center person_crew = true)
    (a : Youth) (ha : a ∈ youth_list) (b : Youth) (hb : b ∈ youth_list)
    (hsib : b.name ∈ a.siblings_list) :
    (∀ c ∈ centers, person_center a.name c.name = person_center b.name c.name) ∧
    (∀ c ∈ centers, ∀ k ∈ c.crews,
      (person_crew a.name c.name k.name).toNat
        + (person_crew b.name c.name k.name).toNat ≤ 1) := by
  obtain ⟨-, -, -, h4, h5, -⟩ := feasible_parts hfeas
  constructor
  · rw [enforce_sibling_center_constraint, List.all_eq_true] at h4
    have h := h4 a ha
    rw [List.all_eq_true] at h
    have h2 := h b.name hsib
    rw [if_pos (mem_youthDictKeys hb), List.all_eq_true] at h2
    intro c hc
    have h3 := h2 c hc
    exact beq_iff_eq.mp h3
  · have hpair := sibling_crew_separation h5 ha hsib (mem_youthDictKeys hb)
    rw [pairCrewSeparation, List.all_eq_true] at hpair
    intro c hc k hk
    have h := hpair c hc
    rw [List.all_eq_true] at h
    exact of_decide_eq_true (h k hk)

theorem claim_C2_witness :
    pcEx yAlice.name centerA.name = pcEx yBob.name centerA.name ∧
    (pkEx yAlice.name centerA.name crewK1.name).toNat
      + (pkEx yBob.name centerA.name crewK1.name).toNat ≤ 1 :=
  ⟨(claim_C2 cfgEx ylEx csEx pcEx pkEx (by decide) yAlice (by decide) yBob
      (by decide) (by decide)).1 centerA (by decide),
   (claim_C2 cfgEx ylEx csEx pcEx pkEx (by decide) yAlice (by decide) yBob
      (by decide) (by decide)).2 centerA (by decide) crewK1 (by decide)⟩

/-- C5: every feasible solution keeps every crew's youth count plus its
pre-existing adult roster size within the configured bounds. -/
theorem claim_C5 (cfg : Config) (youth_list : List Youth)
    (centers : List Center) (person_center : CenterAssign)
    (person_crew : CrewAssign)
    (hfeas : feasible cfg youth_list centers person_center person_crew = true)
    (c : Center) (hc : c ∈ centers) (k : Crew) (hk : k ∈ c.crews) :
    cfg.min_crew_size ≤ ((regularYouth youth_list).map fun y =>
        (person_crew y.name c.name k.name).toNat).sum + k.adults.length ∧
    ((regularYouth youth_list).map fun y =>
        (person_crew y.name c.name k.name).toNat).sum + k.adults.length
      ≤ cfg.max_crew_size := by
  obtain ⟨-, -, -, -, -, -, -, h8, -⟩ := feasible_parts hfeas
  rw [enforce_crew_size_constraints, List.all_eq_true] at h8
  have h := h8 c hc
  rw [List.all_eq_true] at h
  have h2 := h k hk
  simp only [Bool.and_eq_true, decide_eq_true_eq] at h2
  exact h2

theorem claim_C5_witness :
    cfgEx.min_crew_size ≤ ((regularYouth ylEx).map fun y =>
        (pkEx y.name centerA.name crewK1.name).toNat).sum + crewK1.adults.length ∧
    ((regularYouth ylEx).map fun y =>
        (pkEx y.name centerA.name crewK1.name).toNat).sum + crewK1.adults.length
      ≤ cfgEx.max_crew_size :=
  claim_C5 cfgEx ylEx csEx pcEx pkEx (by decide) centerA (by decide) crewK1
    (by decide)

end ASP

namespace ASP

/-- C3: for a rostered youth whose listed parents are all found on some
crew roster, with the first parent located at the unique center `C`
containing it, every feasible solution places the youth at `C` and keeps
it out of every crew of `C` whose roster contains one of its parents. -/
theorem claim_C3 (cfg : Config) (youth_list : List Youth)
    (centers : List Center) (person_center : CenterAssign)
    (person_crew : CrewAssign)
    (hfeas : feasible cfg youth_list centers person_center person_crew = true)
    (y : Youth) (hy : y ∈ youth_list) (p0 : String) (rest : List String)
    (hp : y.parent_names_list = p0 :: rest)
    (hall : ∀ p ∈ y.parent_names_list, p ∈ adult_names centers)
    (C : Center) (hC : C ∈ centers) (hCp0 : containsAdult C p0 = true)
    (huniq : ∀ c ∈ centers, containsAdult c p0 = true → c = C) :
    person_center y.name C.name = true ∧
    ∀ k ∈ C.crews, (∃ p ∈ y.parent_names_list, p ∈ k.adults) →
      person_crew y.name C.name k.name = false := by
  obtain ⟨-, -, h3, -⟩ := feasible_parts hfeas
  simp only [enforce_parent_center_constraint, List.all_eq_true] at h3
  have h := h3 y hy
  simp only [hp, adult_to_center_unique hC hCp0 huniq, Bool.and_eq_true] at h
  obtain ⟨hcenter, hcrews⟩ := h
  refine ⟨beq_iff_eq.mp hcenter, ?_⟩
  rintro k hk ⟨p, hpmem, hpadult⟩
  rw [List.all_eq_true] at hcrews
  have h2 := hcrews k hk
  rw [List.all_eq_true] at h2
  have hpar := h2 p (hp ▸ hpmem)
  rw [if_pos (contains_iff_mem.mpr hpadult)] at hpar
  exact beq_iff_eq.mp hpar

theorem claim_C3_witness :
    pcEx yAlice.name centerA.name = true ∧
    pkEx yAlice.name centerA.name crewK1.name = false := by
  have h := claim_C3 cfgEx ylEx csEx pcEx pkEx (by decide) yAlice (by decide)
    "Pa" [] (by decide) (by decide) centerA (by decide) (by decide) (by decide)
  exact ⟨h.1, h.2 crewK1 (by decide) ⟨"Pa", by decide, by decide⟩⟩

/-- C4, as stated: a non-`Youth` person whose name appears on some crew's
roster has `crew_assign = 1` at that (center, crew) and 0 at every other,
in every feasible solution. This fails on the code when the name appears
on two rosters: at `csC4` the Young Adult `Ya` is on the rosters of both
`(A, K1)` and `(B, K2)`, and the feasible solution `(pcC4, pkC4)` has its
`crew_assign` equal to 1 at both. -/
theorem claim_C4_counterexample :
    ¬ (∀ (person_center : CenterAssign) (person_crew : CrewAssign),
        feasible cfgC4 ylC4 csC4 person_center person_crew = true →
        ∀ y ∈ ylC4, y.role ≠ "Youth" →
        ∀ c0 ∈ csC4, ∀ k0 ∈ c0.crews, y.name ∈ k0.adults →
          person_crew y.name c0.name k0.name = true ∧
          ∀ c ∈ csC4, ∀ k ∈ c.crews, ¬(c = c0 ∧ k = k0) →
            person_crew y.name c.name k.name = false) := by
  intro h
  have h2 := h pcC4 pkC4 (by decide) yaC4 (by decide) (by decide) centerDA
    (by decide) crewD1 (by decide) (by decide)
  have h3 := h2.2 centerDB (by decide) crewD2 (by decide) (by decide)
  exact absurd h3 (by decide)

/-- C4 (amended): a non-`Youth` person whose name appears on the roster of
exactly one (center, crew) has, in every feasible solution, `crew_assign`
equal to 1 there and to 0 at every other (center, crew). -/
theorem claim_C4 (cfg : Config) (youth_list : List Youth)
    (centers : List Center) (person_center : CenterAssign)
    (person_crew : CrewAssign)
    (hfeas : feasible cfg youth_list centers person_center person_crew = true)
    (y : Youth) (hy : y ∈ youth_list) (hrole : y.role ≠ "Youth")
    (c0 : Center) (hc0 : c0 ∈ centers) (k0 : Crew) (hk0 : k0 ∈ c0.crews)
    (hmem : y.name ∈ k0.adults)
    (huniq : ∀ c ∈ centers, ∀ k ∈ c.crews, y.name ∈ k.adults → c = c0 ∧ k = k0) :
    person_crew y.name c0.name k0.name = true ∧
    ∀ c ∈ centers, ∀ k ∈ c.crews, ¬(c = c0 ∧ k = k0) →
      person_crew y.name c.name k.name = false := by
  obtain ⟨h1, -⟩ := feasible_parts hfeas
  rw [add_one_crew_per_youth, List.all_eq_true] at h1
  have h := h1 y hy
  rw [if_neg (fun hb => hrole (beq_iff_eq.mp hb))] at h
  rw [List.all_eq_true] at h
  constructor
  · have h2 := h c0 hc0
    rw [List.all_eq_true] at h2
    have hthis := h2 k0 hk0
    rw [if_pos (contains_iff_mem.mpr hmem)] at hthis
    exact beq_iff_eq.mp hthis
  · intro c hc k hk hne
    have h2 := h c hc
    rw [List.all_eq_true] at h2
    have hthis := h2 k hk
    have hnotmem : y.name ∉ k.adults := fun hm => hne (huniq c hc k hk hm)
    rw [if_neg (fun hb => hnotmem (contains_iff_mem.mp hb))] at hthis
    exact beq_iff_eq.mp hthis

theorem claim_C4_witness :
    pkEx yYa.name centerA.name crewK2.name = true ∧
    pkEx yYa.name centerA.name crewK1.name = false := by
  have h := claim_C4 cfgEx ylEx csEx pcEx pkEx (by decide) yYa (by decide)
    (by decide) centerA (by decide) crewK2 (by decide) (by decide) (by decide)
  exact ⟨h.1, h.2 centerA (by decide) crewK1 (by decide) (by decide)⟩

end ASP

namespace ASP

/-- Friend-center coverage: a person with a nonempty `valid_choices` list,
placed at a center, has some valid choice placed at that center. -/
theorem friend_center_coverage {person_center : CenterAssign}
    {youth_list : List Youth} {centers : List Center} {youth_dict : List String}
    (h7 : enforce_friend_center_constraint person_center youth_list centers
      youth_dict = true)
    {y : Youth} (hy : y ∈ youth_list)
    (hres : validChoices y youth_dict ≠ [])
    {c : Center} (hc : c ∈ centers)
    (hyc : person_center y.name c.name = true) :
    ∃ f ∈ validChoices y youth_dict, person_center f c.name = true := by
  simp only [enforce_friend_center_constraint, List.all_eq_true] at h7
  have h := h7 y hy
  rw [if_neg (fun hb => hres (List.isEmpty_iff.mp hb)), List.all_eq_true] at h
  have h2 := of_decide_eq_true (h c hc)
  rw [hyc] at h2
  have hpos : 0 < ((validChoices y youth_dict).map fun friend =>
      (person_center friend c.name).toNat).sum :=
    Nat.lt_of_lt_of_le Nat.zero_lt_one h2
  obtain ⟨f, hf, hfpos⟩ := exists_pos_of_sum_pos hpos
  refine ⟨f, hf, ?_⟩
  cases hb : person_center f c.name
  · rw [hb] at hfpos
    cases hfpos
  · rfl

/-- C6: a role-`Youth` person with at least one resolvable friend choice is
never crewed with a resolvable friend, and is only placed at a center where
some resolvable friend is also placed. -/
theorem claim_C6 (cfg : Config) (youth_list : List Youth)
    (centers : List Center) (person_center : CenterAssign)
    (person_crew : CrewAssign)
    (hfeas : feasible cfg youth_list centers person_center person_crew = true)
    (y : Youth) (hy : y ∈ youth_list) (hrole : y.role = "Youth")
    (hres : validChoices y (youthDictKeys youth_list) ≠ []) :
    (∀ f ∈ validChoices y (youthDictKeys youth_list), ∀ c ∈ centers,
      ∀ k ∈ c.crews,
      (person_crew y.name c.name k.name).toNat
        + (person_crew f c.name k.name).toNat ≤ 1) ∧
    (∀ c ∈ centers, person_center y.name c.name = true →
      ∃ f ∈ validChoices y (youthDictKeys youth_list),
        person_center f c.name = true) := by
  obtain ⟨-, -, -, -, -, h6, h7, -⟩ := feasible_parts hfeas
  constructor
  · intro f hf c hc k hk
    obtain ⟨hfc, hfd⟩ := List.mem_filter.mp hf
    have hpair := friend_crew_separation h6 hy hfc hfd
    rw [pairCrewSeparation, List.all_eq_true] at hpair
    have h := hpair c hc
    rw [List.all_eq_true] at h
    exact of_decide_eq_true (h k hk)
  · intro c hc hyc
    exact friend_center_coverage h7 hy hres hc hyc

theorem claim_C6_witness :
    (pkEx yAlice.name centerA.name crewK1.name).toNat
      + (pkEx "Bob" centerA.name crewK1.name).toNat ≤ 1 ∧
    (∃ f ∈ validChoices yAlice (youthDictKeys ylEx), pcEx f centerA.name = true) := by
  have h := claim_C6 cfgEx ylEx csEx pcEx pkEx (by decide) yAlice (by decide)
    (by decide) (by decide)
  exact ⟨h.1 "Bob" (by decide) centerA (by decide) crewK1 (by decide),
    h.2 centerA (by decide) (by decide)⟩

/-- C9: the friend constraints are asserted for every person in the list,
Young Adults included: a pinned Young Adult with a resolvable friend choice
has, in every feasible solution, some resolvable friend placed at its fixed
center, and no resolvable friend in its fixed crew. -/
theorem claim_C9 (cfg : Config) (youth_list : List Youth)
    (centers : List Center) (person_center : CenterAssign)
    (person_crew : CrewAssign)
    (hfeas : feasible cfg youth_list centers person_center person_crew = true)
    (y : Youth) (hy : y ∈ youth_list) (hrole : y.role ≠ "Youth")
    (c0 : Center) (hc0 : c0 ∈ centers) (k0 : Crew) (hk0 : k0 ∈ c0.crews)
    (hpin : y.name ∈ k0.adults)
    (hres : validChoices y (youthDictKeys youth_list) ≠ []) :
    (∃ f ∈ validChoices y (youthDictKeys youth_list),
      person_center f c0.name = true) ∧
    (∀ f ∈ validChoices y (youthDictKeys youth_list),
      person_crew f c0.name k0.name = false) := by
  obtain ⟨h1, h2, -, -, -, h6, h7, -⟩ := feasible_parts hfeas
  have hpk : person_crew y.name c0.name k0.name = true := by
    rw [add_one_crew_per_youth, List.all_eq_true] at h1
    have h := h1 y hy
    rw [if_neg (fun hb => hrole (beq_iff_eq.mp hb)), List.all_eq_true] at h
    have hcc := h c0 hc0
    rw [List.all_eq_true] at hcc
    have hthis := hcc k0 hk0
    rw [if_pos (contains_iff_mem.mpr hpin)] at hthis
    exact beq_iff_eq.mp hthis
  have hpc : person_center y.name c0.name = true := by
    rw [link_crew_and_center_vars, List.all_eq_true] at h2
    have h := h2 y hy
    rw [List.all_eq_true] at h
    have hthis := of_decide_eq_true (h c0 hc0)
    have hone : 1 ≤ (c0.crews.map fun k =>
        (person_crew y.name c0.name k.name).toNat).sum := by
      apply le_sum_of_mem
      apply List.mem_map.mpr
      refine ⟨k0, hk0, ?_⟩
      simp [hpk]
    cases hb : person_center y.name c0.name
    · rw [hb] at hthis
      rw [← hthis] at hone
      cases hone
    · rfl
  constructor
  · exact friend_center_coverage h7 hy hres hc0 hpc
  · intro f hf
    obtain ⟨hfc, hfd⟩ := List.mem_filter.mp hf
    have hpair := friend_crew_separation h6 hy hfc hfd
    rw [pairCrewSeparation, List.all_eq_true] at hpair
    have h := hpair c0 hc0
    rw [List.all_eq_true] at h
    have hle := of_decide_eq_true (h k0 hk0)
    rw [hpk] at hle
    cases hb : person_crew f c0.name k0.name
    · rfl
    · rw [hb] at hle
      simp at hle

theorem claim_C9_witness :
    (∃ f ∈ validChoices yYa (youthDictKeys ylEx), pcEx f centerA.name = true) ∧
    pkEx "Bob" centerA.name crewK2.name = false := by
  have h := claim_C9 cfgEx ylEx csEx pcEx pkEx (by decide) yYa (by decide)
    (by decide) centerA (by decide) crewK2 (by decide) (by decide) (by decide)
  exact ⟨h.1, h.2 "Bob" (by decide)⟩

end ASP

namespace ASP

/-- Rewrites the per-youth flattened crew-variable sum over the
(center name, crew) pair enumeration. -/
theorem flatMap_sum_as_pairs (person_crew : CrewAssign) (yname : String)
    (centers : List Center) :
    (centers.flatMap fun c => c.crews.map fun k =>
      (person_crew yname c.name k.name).toNat).sum
      = ((centers.flatMap fun c => c.crews.map fun k => (c.name, k)).map
          fun q => (person_crew yname q.1 q.2.name).toNat).sum := by
  induction centers with
  | nil => rfl
  | cons c t ih =>
    rw [List.flatMap_cons, List.flatMap_cons, List.map_append, List.sum_append,
      List.sum_append, ih, List.map_map]
    rfl

theorem pairs_length (centers : List Center) :
    (centers.flatMap fun c => c.crews.map fun k => (c.name, k)).length
      = num_crews centers := by
  induction centers with
  | nil => rfl
  | cons c t ih =>
    rw [List.flatMap_cons, List.length_append, List.length_map, ih]
    rfl

theorem pairs_adults_sum (centers : List Center) :
    ((centers.flatMap fun c => c.crews.map fun k => (c.name, k)).map
        fun q => q.2.adults.length).sum = total_roster_adults centers := by
  induction centers with
  | nil => rfl
  | cons c t ih =>
    rw [List.flatMap_cons, List.map_append, List.sum_append, ih, List.map_map]
    rfl

/-- C7: when the minimum crew size times the number of crews exceeds the
number of youths plus the fixed roster adults, no assignment satisfies the
one-crew-per-youth and crew-size constraints simultaneously, so the built
model is infeasible. -/
theorem claim_C7 (cfg : Config) (youth_list : List Youth)
    (centers : List Center)
    (hover : num_youths youth_list + total_roster_adults centers
      < cfg.min_crew_size * num_crews centers)
    (person_center : CenterAssign) (person_crew : CrewAssign) :
    (add_one_crew_per_youth person_crew youth_list centers &&
      enforce_crew_size_constraints person_crew (regularYouth youth_list)
        centers cfg) = false ∧
    feasible cfg youth_list centers person_center person_crew = false := by
  have key : ¬ (add_one_crew_per_youth person_crew youth_list centers = true ∧
      enforce_crew_size_constraints person_crew (regularYouth youth_list)
        centers cfg = true) := by
    rintro ⟨h1, h8⟩
    rw [add_one_crew_per_youth, List.all_eq_true] at h1
    rw [enforce_crew_size_constraints, List.all_eq_true] at h8
    have hsize : ∀ q ∈ centers.flatMap fun c => c.crews.map fun k => (c.name, k),
        cfg.min_crew_size ≤ ((regularYouth youth_list).map fun y =>
          (person_crew y.name q.1 q.2.name).toNat).sum + q.2.adults.length := by
      intro q hq
      obtain ⟨c, hc, hq2⟩ := List.mem_flatMap.mp hq
      obtain ⟨k, hk, rfl⟩ := List.mem_map.mp hq2
      have h := h8 c hc
      rw [List.all_eq_true] at h
      have h2 := h k hk
      simp only [Bool.and_eq_true, decide_eq_true_eq] at h2
      exact h2.1
    have hyouth : ∀ y ∈ regularYouth youth_list,
        (((centers.flatMap fun c => c.crews.map fun k => (c.name, k)).map
          fun q => (person_crew y.name q.1 q.2.name).toNat).sum) = 1 := by
      intro y hyS
      obtain ⟨hymem, hyrole⟩ := List.mem_filter.mp
        (show y ∈ youth_list.filter (fun z => z.role == "Youth") from hyS)
      have h := h1 y hymem
      rw [if_pos hyrole] at h
      have h2 := of_decide_eq_true h
      rw [flatMap_sum_as_pairs] at h2
      exact h2
    have hchain := sum_const_le hsize
    rw [sum_map_add, pairs_length, pairs_adults_sum, ← sum_map_swap,
      sum_map_one hyouth] at hchain
    have hlen : (regularYouth youth_list).length = num_youths youth_list := rfl
    rw [hlen] at hchain
    omega
  constructor
  · cases hab : (add_one_crew_per_youth person_crew youth_list centers &&
        enforce_crew_size_constraints person_crew (regularYouth youth_list)
          centers cfg) with
    | false => rfl
    | true =>
      rw [Bool.and_eq_true] at hab
      exact absurd hab key
  · cases hf : feasible cfg youth_list centers person_center person_crew with
    | false => rfl
    | true =>
      obtain ⟨h1, -, -, -, -, -, -, h8, -⟩ := feasible_parts hf
      exact absurd ⟨h1, h8⟩ key

theorem claim_C7_witness :
    (add_one_crew_per_youth pkZero ylC7 csC7 &&
      enforce_crew_size_constraints pkZero (regularYouth ylC7) csC7 cfgC7) = false ∧
    feasible cfgC7 ylC7 csC7 pcZero pkZero = false :=
  claim_C7 cfgC7 ylC7 csC7 (by decide) pcZero pkZero

/-- C8: a youth listing a parent found on no crew roster makes model
construction raise a `ValueError` before any solve; no model or variable
maps are returned. -/
theorem claim_C8 (cfg : Config) (youth_list : List Youth)
    (centers : List Center)
    (y : Youth) (hy : y ∈ youth_list) (p : String)
    (hp : p ∈ y.parent_names_list) (hmiss : p ∉ adult_names centers) :
    ∃ msg, create_crew_assignment_model cfg youth_list centers
      = Except.error msg := by
  have hc : (adult_names centers).contains p = false := by
    cases hb : (adult_names centers).contains p with
    | false => rfl
    | true => exact absurd (contains_iff_mem.mp hb) hmiss
  obtain ⟨pe, hpe⟩ := firstMissingParent_isSome hy hp hc
  refine ⟨"Parent " ++ pe.1 ++ " not found in any center for " ++ pe.2, ?_⟩
  simp only [create_crew_assignment_model, hpe]

theorem claim_C8_witness :
    ∃ msg, create_crew_assignment_model cfgEx ylC8 csEx = Except.error msg :=
  claim_C8 cfgEx ylC8 csEx yKid (by decide) "Ghost" (by decide) (by decide)

/-- C10: a non-`Youth` person on no crew roster raises no construction
error (construction fails only on unresolved parents), and every feasible
solution leaves all of its `crew_assign` and `center_assign` variables 0. -/
theorem claim_C10 (cfg : Config) (youth_list : List Youth)
    (centers : List Center) (person_center : CenterAssign)
    (person_crew : CrewAssign)
    (y : Youth) (hy : y ∈ youth_list) (hrole : y.role ≠ "Youth")
    (hnot : ∀ c ∈ centers, ∀ k ∈ c.crews, y.name ∉ k.adults)
    (hok : firstMissingParent (adult_names centers) youth_list = none) :
    (∃ keys, create_crew_assignment_model cfg youth_list centers
      = Except.ok keys) ∧
    (feasible cfg youth_list centers person_center person_crew = true →
      (∀ c ∈ centers, ∀ k ∈ c.crews,
        person_crew y.name c.name k.name = false) ∧
      (∀ c ∈ centers, person_center y.name c.name = false)) := by
  constructor
  · exact ⟨_, by simp only [create_crew_assignment_model, hok]; rfl⟩
  · intro hfeas
    obtain ⟨h1, h2, -⟩ := feasible_parts hfeas
    have hzero : ∀ c ∈ centers, ∀ k ∈ c.crews,
        person_crew y.name c.name k.name = false := by
      intro c hc k hk
      rw [add_one_crew_per_youth, List.all_eq_true] at h1
      have h := h1 y hy
      rw [if_neg (fun hb => hrole (beq_iff_eq.mp hb)), List.all_eq_true] at h
      have hcc := h c hc
      rw [List.all_eq_true] at hcc
      have hthis := hcc k hk
      rw [if_neg (fun hb => hnot c hc k hk (contains_iff_mem.mp hb))] at hthis
      exact beq_iff_eq.mp hthis
    refine ⟨hzero, ?_⟩
    intro c hc
    rw [link_crew_and_center_vars, List.all_eq_true] at h2
    have h := h2 y hy
    rw [List.all_eq_true] at h
    have hthis := of_decide_eq_true (h c hc)
    have hsum : (c.crews.map fun k =>
        (person_crew y.name c.name k.name).toNat).sum = 0 := by
      apply List.sum_eq_zero
      intro x hx
      obtain ⟨k, hk, rfl⟩ := List.mem_map.mp hx
      simp [hzero c hc k hk]
    rw [hsum] at hthis
    cases hb : person_center y.name c.name with
    | false => rfl
    | true =>
      rw [hb] at hthis
      cases hthis

theorem claim_C10_witness :
    (∃ keys, create_crew_assignment_model cfgEx ylEx csEx = Except.ok keys) ∧
    pkEx yZed.name centerA.name crewK1.name = false ∧
    pcEx yZed.name centerA.name = false := by
  have h := claim_C10 cfgEx ylEx csEx pcEx pkEx yZed (by decide) (by decide)
    (by decide) (by decide)
  exact ⟨h.1, (h.2 (by decide)).1 centerA (by decide) crewK1 (by decide),
    (h.2 (by decide)).2 centerA (by decide)⟩

end ASP
